import Mathlib

/-!
# Verification of the bincode encoder/decoder pair

Shallow embedding of the repository's two source files:

* `src/writer.rs` — `EncoderWriter`, an `Encoder` implementation that turns
  shape-directed `emit_*` calls into big-endian bytes.
* `src/serde/reader.rs` — `Deserializer`, a `serde::Deserializer`
  implementation that reads those bytes back, enforcing a size limit and an
  error taxonomy.

Bytes are modelled as `Nat`s below 256 in `List Nat`; the borrowed
`Read`/`Writer` endpoints are modelled as the list of bytes the reader will
still deliver (a list-backed reader delivers `min requested available` bytes
per `read` call and reports end-of-stream by delivering zero bytes).
-/

set_option maxHeartbeats 1000000
set_option maxRecDepth 100000

namespace Bincode

/-! ## Big-endian byte helpers (the `byteorder` / old-`std` read_be/write_be) -/

/-- The `w` big-endian bytes of `v` (low 8·w bits), as written by
`write_be_u16/u32/u64`. -/
def beBytes : Nat → Nat → List Nat
  | 0, _ => []
  | w + 1, v => beBytes w (v / 256) ++ [v % 256]

/-- Reassemble a big-endian byte list, as `read_u16/u32/u64::<BigEndian>` do. -/
def beVal (l : List Nat) : Nat :=
  l.foldl (fun a b => a * 256 + b) 0

/-! ## Error taxonomy (`DeserializeError` in `src/serde/reader.rs`) -/

/-- The payload of `DeserializeError::InvalidEncoding`. -/
structure InvalidEncoding where
  desc : String
  detail : Option String
deriving DecidableEq, Repr

/-- `DeserializeError`.  `IoError` carries its `std::io::Error` in the source;
no operation modelled here constructs one, so the payload is dropped. -/
inductive DeserializeError where
  | IoError
  | InvalidEncoding (e : Bincode.InvalidEncoding)
  | SizeLimit
  | SyntaxError
  | EndOfStreamError
  | UnknownFieldError
  | MissingFieldError
deriving DecidableEq, Repr

/-- `SizeLimit` configuration (from the crate root, used by the reader). -/
inductive SizeLimit where
  | Infinite
  | Bounded (n : Nat)
deriving DecidableEq, Repr

/-- The mutable state of `Deserializer<'a, R>`: the configured limit, the
running counter `read`, and the bytes the borrowed reader will still
deliver. -/
structure Deserializer where
  size_limit : SizeLimit
  read : Nat
  src : List Nat
deriving DecidableEq, Repr

/-- Outcome of a decoding step.  `ok`/`err` carry the deserializer state after
the step (the Rust `&mut` state persists across an `Err` return); `diverge`
marks a step that never returns (an infinite loop in the source). -/
inductive DecResult (α : Type) where
  | ok (v : α) (st : Deserializer)
  | err (e : DeserializeError) (st : Deserializer)
  | diverge
deriving DecidableEq, Repr

/-- Sequencing of decoding steps (the `try!` chains in the source). -/
def DecResult.bind {α β : Type} (r : DecResult α)
    (f : α → Deserializer → DecResult β) : DecResult β :=
  match r with
  | .ok v st => f v st
  | .err e st => .err e st
  | .diverge => .diverge

/-! ## Size-limit accounting and primitive reads -/

/-- `Deserializer::read_bytes`: add `count` to the running counter first, then
fail with `SizeLimit` when a bounded limit is exceeded.  The counter stays
advanced on failure, and no byte is consumed from the reader here. -/
def read_bytes (st : Deserializer) (count : Nat) : DecResult Unit :=
  let st' : Deserializer := { st with read := st.read + count }
  match st'.size_limit with
  | .Infinite => .ok () st'
  | .Bounded x => if st'.read ≤ x then .ok () st' else .err .SizeLimit st'

/-- A `byteorder` fixed-width read: `w` bytes or `UnexpectedEOF`, which
converts to `EndOfStreamError`. -/
def readExact (st : Deserializer) (w : Nat) : DecResult (List Nat) :=
  if w ≤ st.src.length then
    .ok (st.src.take w) { st with src := st.src.drop w }
  else
    .err .EndOfStreamError st

/-- The body shared by `impl_nums!`, `visit_u8` and `visit_i8`:
`read_type::<T>()` (limit accounting for `size_of::<T>()` bytes) followed by
the big-endian read of the same width. -/
def readPrim (st : Deserializer) (w : Nat) : DecResult Nat :=
  (read_bytes st w).bind fun _ st1 =>
    (readExact st1 w).bind fun bs st2 => .ok (beVal bs) st2

/-- Two's-complement reinterpretation performed by `read_i8/i16/i32/i64`. -/
def toSigned (w : Nat) (n : Nat) : Int :=
  if n < 2 ^ (8 * w - 1) then (n : Int) else (n : Int) - 2 ^ (8 * w)

/-! ## UTF-8 (`visit_char`, `visit_string` and the static width table) -/

/-- The 256-entry `UTF8_CHAR_WIDTH` table at the bottom of
`src/serde/reader.rs`, verbatim. -/
def UTF8_CHAR_WIDTH : List Nat := [
1,1,1,1,1,1,1,1,1,1,1,1,1,1,1,1,
1,1,1,1,1,1,1,1,1,1,1,1,1,1,1,1, -- 0x1F
1,1,1,1,1,1,1,1,1,1,1,1,1,1,1,1,
1,1,1,1,1,1,1,1,1,1,1,1,1,1,1,1, -- 0x3F
1,1,1,1,1,1,1,1,1,1,1,1,1,1,1,1,
1,1,1,1,1,1,1,1,1,1,1,1,1,1,1,1, -- 0x5F
1,1,1,1,1,1,1,1,1,1,1,1,1,1,1,1,
1,1,1,1,1,1,1,1,1,1,1,1,1,1,1,1, -- 0x7F
0,0,0,0,0,0,0,0,0,0,0,0,0,0,0,0,
0,0,0,0,0,0,0,0,0,0,0,0,0,0,0,0, -- 0x9F
0,0,0,0,0,0,0,0,0,0,0,0,0,0,0,0,
0,0,0,0,0,0,0,0,0,0,0,0,0,0,0,0, -- 0xBF
0,0,2,2,2,2,2,2,2,2,2,2,2,2,2,2,
2,2,2,2,2,2,2,2,2,2,2,2,2,2,2,2, -- 0xDF
3,3,3,3,3,3,3,3,3,3,3,3,3,3,3,3, -- 0xEF
4,4,4,4,4,0,0,0,0,0,0,0,0,0,0,0] -- 0xFF

/-- `utf8_char_width`: table lookup on the lead byte. -/
def utf8_char_width (b : Nat) : Nat := UTF8_CHAR_WIDTH.getD b 0

/-- The UTF-8 encoded width of a Unicode scalar value (`char::len_utf8`). -/
def utf8Width (c : Nat) : Nat :=
  if c < 0x80 then 1 else if c < 0x800 then 2 else if c < 0x10000 then 3 else 4

/-- The UTF-8 encoding of a Unicode scalar value, as `Writer::write_char`
emits it. -/
def utf8Encode (c : Nat) : List Nat :=
  if c < 0x80 then [c]
  else if c < 0x800 then [0xC0 + c / 64, 0x80 + c % 64]
  else if c < 0x10000 then [0xE0 + c / 4096, 0x80 + c / 64 % 64, 0x80 + c % 64]
  else [0xF0 + c / 262144, 0x80 + c / 4096 % 64, 0x80 + c / 64 % 64,
        0x80 + c % 64]

/-- A UTF-8 continuation byte (`0x80 ..= 0xBF`). -/
def isCont (b : Nat) : Bool := decide (0x80 ≤ b ∧ b ≤ 0xBF)

/-- `str::from_utf8` restricted to a buffer holding exactly one code point:
the per-character acceptance of the standard validator (same second-byte
ranges as `core::str` uses, which exclude overlong forms and surrogates). -/
def utf8Decode1 : List Nat → Option Nat
  | [b0] => if b0 < 0x80 then some b0 else none
  | [b0, b1] =>
      if (0xC2 ≤ b0 ∧ b0 ≤ 0xDF) ∧ isCont b1 then
        some ((b0 - 0xC0) * 64 + (b1 - 0x80))
      else none
  | [b0, b1, b2] =>
      if ((b0 = 0xE0 ∧ 0xA0 ≤ b1 ∧ b1 ≤ 0xBF) ∨
          (0xE1 ≤ b0 ∧ b0 ≤ 0xEC ∧ isCont b1) ∨
          (b0 = 0xED ∧ 0x80 ≤ b1 ∧ b1 ≤ 0x9F) ∨
          (0xEE ≤ b0 ∧ b0 ≤ 0xEF ∧ isCont b1)) ∧ isCont b2 then
        some ((b0 - 0xE0) * 4096 + (b1 - 0x80) * 64 + (b2 - 0x80))
      else none
  | [b0, b1, b2, b3] =>
      if ((b0 = 0xF0 ∧ 0x90 ≤ b1 ∧ b1 ≤ 0xBF) ∨
          (0xF1 ≤ b0 ∧ b0 ≤ 0xF3 ∧ isCont b1) ∨
          (b0 = 0xF4 ∧ 0x80 ≤ b1 ∧ b1 ≤ 0x8F)) ∧ isCont b2 ∧ isCont b3 then
        some ((b0 - 0xF0) * 262144 + (b1 - 0x80) * 4096 + (b2 - 0x80) * 64 +
              (b3 - 0x80))
      else none
  | _ => none

/-- `String::from_utf8` on a whole buffer: validate character by character,
returning the list of decoded scalar values. -/
def utf8DecodeAll : List Nat → Option (List Nat)
  | [] => some []
  | b :: rest =>
      let w := utf8_char_width b
      if _h0 : w = 0 then none
      else if _hl : (b :: rest).length < w then none
      else
        match utf8Decode1 ((b :: rest).take w) with
        | none => none
        | some c =>
            match utf8DecodeAll ((b :: rest).drop w) with
            | none => none
            | some cs => some (c :: cs)
termination_by l => l.length
decreasing_by
  simp only [List.length_drop]
  omega

/-- The continuation-byte loop inside `visit_char` (`while start < width`),
with an explicit iteration budget.  A list-backed reader returns
`min requested available` bytes from each `read` call, so the
`n > width - start` arm of the source's `match` (which returns
`Err(invalid char encoding)`) is unreachable and is omitted.  `none` means
the budget ran out while the loop was still running. -/
def charLoopGo : Nat → List Nat → Nat → List Nat → Option (List Nat × List Nat)
  | 0, _, _, _ => none
  | f + 1, filled, width, src =>
      if filled.length < width then
        let cap := width - filled.length
        let n := min cap src.length
        if n = cap then some (filled ++ src.take n, src.drop n)
        else charLoopGo f (filled ++ src.take n) width (src.drop n)
      else some (filled, src)

/-- `visit_char`.  The first `reader.read(&mut buf[..])` has its result
ignored (`let _ = try!(...)`), so at end-of-stream the zero-initialized
buffer leaves `first_byte = 0`.  A width-1 lead byte is returned immediately
without any `read_bytes` accounting; otherwise the continuation loop runs,
the buffer is validated as UTF-8, and only then is `read` advanced by the
decoded code point's `len_utf8()`. -/
def visit_char (st : Deserializer) : DecResult Nat :=
  let first_byte := match st.src with | [] => 0 | b :: _ => b
  let st1 : Deserializer := { st with src := st.src.drop 1 }
  let width := utf8_char_width first_byte
  if width = 1 then .ok first_byte st1
  else if width = 0 then
    .err (.InvalidEncoding ⟨"Invalid char encoding", none⟩) st1
  else
    match charLoopGo 2 [first_byte] width st1.src with
    | none => .diverge
    | some (buf, rest) =>
        let st2 : Deserializer := { st1 with src := rest }
        match utf8Decode1 buf with
        | none => .err (.InvalidEncoding ⟨"Invalid char encoding", none⟩) st2
        | some c =>
            (read_bytes st2 (utf8Width c)).bind fun _ st3 => .ok c st3

/-- `visit_string`: u64 length prefix, `read_bytes(len)` accounting, then
`reader.by_ref().take(len).read_to_end(&mut buffer)` — which delivers
`min len available` bytes and succeeds regardless of how many arrived —
then UTF-8 validation of whatever was read.  The dynamic detail string of the
UTF-8 failure (`format!("Deserialize error: {}", err)`) is modelled by a
fixed placeholder. -/
def visit_string (st : Deserializer) : DecResult (List Nat) :=
  (readPrim st 8).bind fun len st =>
    (read_bytes st len).bind fun _ st =>
      let buffer := st.src.take len
      let st1 : Deserializer := { st with src := st.src.drop len }
      match utf8DecodeAll buffer with
      | some cs => .ok cs st1
      | none => .err (.InvalidEncoding ⟨"error while decoding utf8 string",
          some "Deserialize error: invalid utf-8"⟩) st1

/-! ## The closed universe of value shapes (§3 of the spec)

The decoder is driven by the caller's `Deserialize` script; `Shape` is that
script (which `visit_*` method is invoked where) and `Value` the decoded
result.  An enum variant's payload is decoded as a tuple, so each variant of
`sEnum` is a list of field shapes. -/

inductive Shape where
  | sBool | sU8 | sU16 | sU32 | sU64
  | sI8 | sI16 | sI32 | sI64
  | sF32 | sF64
  | sUnit | sChar | sStr
  | sOption (s : Shape)
  | sSeq (s : Shape)
  | sMap (k v : Shape)
  | sTuple (ss : List Shape)
  | sEnum (variants : List (List Shape))
deriving Repr

/-- Decoded values.  Floats are carried as their IEEE-754 bit patterns: both
`write_be_f32` and `read_f32::<BigEndian>` move the raw bits, so this is the
exact wire content. -/
inductive Value where
  | vBool (b : Bool)
  | vU8 (n : Nat) | vU16 (n : Nat) | vU32 (n : Nat) | vU64 (n : Nat)
  | vI8 (i : Int) | vI16 (i : Int) | vI32 (i : Int) | vI64 (i : Int)
  | vF32 (bits : Nat) | vF64 (bits : Nat)
  | vUnit
  | vChar (c : Nat)
  | vStr (cs : List Nat)
  | vOption (o : Option Value)
  | vSeq (l : List Value)
  | vMap (l : List (Value × Value))
  | vTuple (l : List Value)
  | vEnum (idx : Nat) (payload : List Value)
deriving Repr

/-! ## The decoder (`impl serde::Deserializer for Deserializer` composed with
the standard `Deserialize` scripts for each shape)

* primitives: `visit_bool`, `visit_u8`, `impl_nums!`, `visit_unit`;
* `sOption`: `visit_option` (1-byte tag, 0/1/other);
* `sSeq`: `visit_seq` — u64 length prefix (the `usize` length is deserialized
  through `visit_usize`, whose `num::cast` on a 64-bit platform never fails),
  then the `SeqVisitor` yields exactly `len` elements and its `end` passes;
* `sMap`: `visit_map`, identically with key/value pairs;
* `sTuple`: `visit_tuple` — no prefix, no end enforcement;
* `sEnum`: `visit_enum` → `VariantVisitor::visit_variant` reads a u32 index,
  and the derived visitor rejects an out-of-range index (`SyntaxError`),
  otherwise decodes that variant's payload as a tuple. -/

mutual

def decode : Shape → Deserializer → DecResult Value
  | .sBool, st =>
      (readPrim st 1).bind fun value st =>
        if value = 1 then .ok (.vBool true) st
        else if value = 0 then .ok (.vBool false) st
        else .err (.InvalidEncoding ⟨"invalid u8 when decoding bool",
          some ("Expected 0 or 1, got " ++ toString value)⟩) st
  | .sU8, st => (readPrim st 1).bind fun n st => .ok (.vU8 n) st
  | .sU16, st => (readPrim st 2).bind fun n st => .ok (.vU16 n) st
  | .sU32, st => (readPrim st 4).bind fun n st => .ok (.vU32 n) st
  | .sU64, st => (readPrim st 8).bind fun n st => .ok (.vU64 n) st
  | .sI8, st => (readPrim st 1).bind fun n st => .ok (.vI8 (toSigned 1 n)) st
  | .sI16, st => (readPrim st 2).bind fun n st => .ok (.vI16 (toSigned 2 n)) st
  | .sI32, st => (readPrim st 4).bind fun n st => .ok (.vI32 (toSigned 4 n)) st
  | .sI64, st => (readPrim st 8).bind fun n st => .ok (.vI64 (toSigned 8 n)) st
  | .sF32, st => (readPrim st 4).bind fun n st => .ok (.vF32 n) st
  | .sF64, st => (readPrim st 8).bind fun n st => .ok (.vF64 n) st
  | .sUnit, st => .ok .vUnit st
  | .sChar, st => (visit_char st).bind fun c st => .ok (.vChar c) st
  | .sStr, st => (visit_string st).bind fun cs st => .ok (.vStr cs) st
  | .sOption s, st =>
      (readPrim st 1).bind fun value st =>
        if value = 0 then .ok (.vOption none) st
        else if value = 1 then
          (decode s st).bind fun v st => .ok (.vOption (some v)) st
        else .err (.InvalidEncoding ⟨"invalid tag when decoding Option",
          some ("Expected 0 or 1, got " ++ toString value)⟩) st
  | .sSeq s, st =>
      (readPrim st 8).bind fun len st =>
        (decodeN s len st).bind fun l st => .ok (.vSeq l) st
  | .sMap k v, st =>
      (readPrim st 8).bind fun len st =>
        (decodePairs k v len st).bind fun l st => .ok (.vMap l) st
  | .sTuple ss, st =>
      (decodeTup ss st).bind fun l st => .ok (.vTuple l) st
  | .sEnum vss, st =>
      (readPrim st 4).bind fun idx st =>
        (decodeVariant vss idx st).bind fun l st => .ok (.vEnum idx l) st
termination_by s _ => (sizeOf s, 1, 0)

/-- The `SeqVisitor` traversal as the derived `Deserialize` for a sequence
drives it: pull elements until the visitor answers `None`, i.e. exactly
`len` of them. -/
def decodeN : Shape → Nat → Deserializer → DecResult (List Value)
  | _, 0, st => .ok [] st
  | s, n + 1, st =>
      (decode s st).bind fun v st =>
        (decodeN s n st).bind fun l st => .ok (v :: l) st
termination_by s n _ => (1 + sizeOf s, 0, n)

/-- The `MapVisitor` traversal: `len` key/value pairs. -/
def decodePairs : Shape → Shape → Nat → Deserializer → DecResult (List (Value × Value))
  | _, _, 0, st => .ok [] st
  | k, v, n + 1, st =>
      (decode k st).bind fun kv st =>
        (decode v st).bind fun vv st =>
          (decodePairs k v n st).bind fun l st => .ok ((kv, vv) :: l) st
termination_by k v n _ => (1 + sizeOf k + sizeOf v, 0, n)

/-- The `TupleVisitor` traversal: one element per declared field, no count
bookkeeping. -/
def decodeTup : List Shape → Deserializer → DecResult (List Value)
  | [], st => .ok [] st
  | s :: ss, st =>
      (decode s st).bind fun v st =>
        (decodeTup ss st).bind fun l st => .ok (v :: l) st
termination_by ss _ => (sizeOf ss, 0, 0)

/-- Variant dispatch of the derived enum `Deserialize`: select the payload
shape by index, `SyntaxError` for an unknown index. -/
def decodeVariant : List (List Shape) → Nat → Deserializer → DecResult (List Value)
  | [], _, st => .err .SyntaxError st
  | ss :: _, 0, st => decodeTup ss st
  | _ :: rest, n + 1, st => decodeVariant rest n st
termination_by vss n _ => (sizeOf vss, 0, n)

end

/-! ## The encoder (`impl Encoder for EncoderWriter` in `src/writer.rs`) -/

def emit_u8 (v : Nat) : List Nat := [v % 256]
def emit_u16 (v : Nat) : List Nat := beBytes 2 v
def emit_u32 (v : Nat) : List Nat := beBytes 4 v
def emit_u64 (v : Nat) : List Nat := beBytes 8 v

/-- `emit_uint`: `self.emit_u64(v as u64)`. -/
def emit_uint (v : Nat) : List Nat := emit_u64 v

def emit_i8 (v : Int) : List Nat := [((v % (2 ^ 8)).toNat) % 256]
def emit_i16 (v : Int) : List Nat := beBytes 2 (v % (2 ^ 16)).toNat
def emit_i32 (v : Int) : List Nat := beBytes 4 (v % (2 ^ 32)).toNat
def emit_i64 (v : Int) : List Nat := beBytes 8 (v % (2 ^ 64)).toNat

def emit_bool (v : Bool) : List Nat := [if v then 1 else 0]

/-- `emit_char`: `self.writer.write_char(v)` writes the UTF-8 encoding. -/
def emit_char (c : Nat) : List Nat := utf8Encode c

/-- `emit_str`: `emit_uint(v.len())` (the byte length) then the raw bytes. -/
def emit_str (bytes : List Nat) : List Nat := emit_uint bytes.length ++ bytes

/-- `emit_enum_variant`: `emit_uint(v_id)` then the payload. -/
def emit_enum_variant (v_id : Nat) (payload : List Nat) : List Nat :=
  emit_uint v_id ++ payload

def emit_option_none : List Nat := [0]
def emit_option_some (payload : List Nat) : List Nat := 1 :: payload

/-- `emit_seq`: `emit_uint(len)` then the elements. -/
def emit_seq (len : Nat) (payload : List Nat) : List Nat :=
  emit_uint len ++ payload

/-- `emit_map`: `emit_uint(len)` then the pairs. -/
def emit_map (len : Nat) (payload : List Nat) : List Nat :=
  emit_uint len ++ payload

mutual

/-- The byte stream produced by the derived `Encodable` script of a value
running against `EncoderWriter`. -/
def encodeVal : Value → List Nat
  | .vBool b => emit_bool b
  | .vU8 n => emit_u8 n
  | .vU16 n => emit_u16 n
  | .vU32 n => emit_u32 n
  | .vU64 n => emit_u64 n
  | .vI8 i => emit_i8 i
  | .vI16 i => emit_i16 i
  | .vI32 i => emit_i32 i
  | .vI64 i => emit_i64 i
  | .vF32 n => emit_u32 n
  | .vF64 n => emit_u64 n
  | .vUnit => []
  | .vChar c => emit_char c
  | .vStr cs => emit_str (List.flatten (cs.map utf8Encode))
  | .vOption none => emit_option_none
  | .vOption (some v) => emit_option_some (encodeVal v)
  | .vSeq l => emit_seq l.length (encodeList l)
  | .vMap l => emit_map l.length (encodePairs l)
  | .vTuple l => encodeList l
  | .vEnum idx p => emit_enum_variant idx (encodeList p)

def encodeList : List Value → List Nat
  | [] => []
  | v :: vs => encodeVal v ++ encodeList vs

def encodePairs : List (Value × Value) → List Nat
  | [] => []
  | (k, v) :: rest => encodeVal k ++ encodeVal v ++ encodePairs rest

end

/-! ## The bounded iterators handed to the caller's visitor -/

namespace SeqVisitor

/-- `SeqVisitor::visit` (`visit_seq`): a positive remaining count decodes one
element and decrements; a zero count answers `None` without reading. -/
def visit (s : Shape) (len : Nat) (st : Deserializer) :
    DecResult (Option Value × Nat) :=
  if 0 < len then
    (decode s st).bind fun v st => .ok (some v, len - 1) st
  else .ok (none, len) st

/-- `SeqVisitor::end`: succeed only when the declared count was fully
consumed; `serde::de::Error::syntax("expected end")` otherwise, which maps to
`SyntaxError`. -/
def endCheck (len : Nat) : Except DeserializeError Unit :=
  if len = 0 then .ok () else .error .SyntaxError

/-- `k` successive `visit` requests, returning the remaining count. -/
def visitMany (s : Shape) : Nat → Nat → Deserializer → DecResult Nat
  | 0, len, st => .ok len st
  | k + 1, len, st =>
      (visit s len st).bind fun r st => visitMany s k r.2 st

end SeqVisitor

namespace TupleVisitor

/-- `TupleVisitor::visit` (`visit_tuple`): every request decodes an element —
there is no remaining-count state to run out. -/
def visit (s : Shape) (st : Deserializer) : DecResult (Option Value) :=
  (decode s st).bind fun v st => .ok (some v) st

/-- `TupleVisitor::end`: unconditionally `Ok(())`. -/
def endCheck : Except DeserializeError Unit := .ok ()

end TupleVisitor

/-! ## Well-formed values for a shape -/

/-- A Unicode scalar value (what a Rust `char` can hold). -/
def charWf (c : Nat) : Bool :=
  decide (c < 0x110000) && !decide (0xD800 ≤ c ∧ c < 0xE000)

/-- Byte length of a string given as scalar values. -/
def strByteLen (cs : List Nat) : Nat :=
  (List.flatten (cs.map utf8Encode)).length

mutual

/-- `v` is a value of shape `s`, within the numeric ranges the Rust types
enforce statically (and, for lengths, within `u64`/`usize` range). -/
def Value.matches : Value → Shape → Bool
  | .vBool _, .sBool => true
  | .vU8 n, .sU8 => decide (n < 2 ^ 8)
  | .vU16 n, .sU16 => decide (n < 2 ^ 16)
  | .vU32 n, .sU32 => decide (n < 2 ^ 32)
  | .vU64 n, .sU64 => decide (n < 2 ^ 64)
  | .vI8 i, .sI8 => decide (-(2 ^ 7) ≤ i ∧ i < 2 ^ 7)
  | .vI16 i, .sI16 => decide (-(2 ^ 15) ≤ i ∧ i < 2 ^ 15)
  | .vI32 i, .sI32 => decide (-(2 ^ 31) ≤ i ∧ i < 2 ^ 31)
  | .vI64 i, .sI64 => decide (-(2 ^ 63) ≤ i ∧ i < 2 ^ 63)
  | .vF32 n, .sF32 => decide (n < 2 ^ 32)
  | .vF64 n, .sF64 => decide (n < 2 ^ 64)
  | .vUnit, .sUnit => true
  | .vChar c, .sChar => charWf c
  | .vStr cs, .sStr => cs.all charWf && decide (strByteLen cs < 2 ^ 64)
  | .vOption none, .sOption _ => true
  | .vOption (some v), .sOption s => v.matches s
  | .vSeq l, .sSeq s => decide (l.length < 2 ^ 64) && matchesList l s
  | .vMap l, .sMap k v => decide (l.length < 2 ^ 64) && matchesPairs l k v
  | .vTuple l, .sTuple ss => matchesTup l ss
  | .vEnum idx p, .sEnum vss => matchesVariant vss idx p
  | _, _ => false
termination_by v _ => (sizeOf v, 0)

def matchesList : List Value → Shape → Bool
  | [], _ => true
  | x :: xs, s => x.matches s && matchesList xs s
termination_by l _ => (sizeOf l, 0)

def matchesPairs : List (Value × Value) → Shape → Shape → Bool
  | [], _, _ => true
  | (x, y) :: xs, k, v => x.matches k && y.matches v && matchesPairs xs k v
termination_by l _ _ => (sizeOf l, 0)

def matchesTup : List Value → List Shape → Bool
  | [], [] => true
  | x :: xs, s :: ss => x.matches s && matchesTup xs ss
  | _, _ => false
termination_by l _ => (sizeOf l, 0)

def matchesVariant : List (List Shape) → Nat → List Value → Bool
  | [], _, _ => false
  | ss :: _, 0, p => matchesTup p ss
  | _ :: rest, n + 1, p => matchesVariant rest n p
termination_by vss _ p => (sizeOf p, 1 + sizeOf vss)

end

mutual

/-- Shapes whose decoding never routes through `visit_enum` (the encoder and
decoder disagree on the variant-index width, so these are the shapes for
which the two sides share one wire format). -/
def noEnum : Shape → Bool
  | .sOption s => noEnum s
  | .sSeq s => noEnum s
  | .sMap k v => noEnum k && noEnum v
  | .sTuple ss => noEnumList ss
  | .sEnum _ => false
  | _ => true

def noEnumList : List Shape → Bool
  | [] => true
  | s :: ss => noEnum s && noEnumList ss

end

/-! ## Basic lemmas -/

@[simp] theorem beBytes_length (w v : Nat) : (beBytes w v).length = w := by
  induction w generalizing v with
  | zero => rfl
  | succ w ih => simp [beBytes, ih]

theorem beVal_append_singleton (l : List Nat) (b : Nat) :
    beVal (l ++ [b]) = beVal l * 256 + b := by
  simp [beVal, List.foldl_append]

theorem beVal_beBytes {w v : Nat} (h : v < 256 ^ w) :
    beVal (beBytes w v) = v := by
  induction w generalizing v with
  | zero =>
      interval_cases v
      rfl
  | succ w ih =>
      have hdiv : v / 256 < 256 ^ w := by
        rw [Nat.div_lt_iff_lt_mul (by norm_num)]
        calc v < 256 ^ (w + 1) := h
        _ = 256 ^ w * 256 := by ring
      rw [beBytes, beVal_append_singleton, ih hdiv]
      omega

@[simp] theorem DecResult.bind_ok {α β : Type} (v : α) (st : Deserializer)
    (f : α → Deserializer → DecResult β) :
    (DecResult.ok v st).bind f = f v st := rfl

@[simp] theorem DecResult.bind_err {α β : Type} (e : DeserializeError)
    (st : Deserializer) (f : α → Deserializer → DecResult β) :
    (DecResult.err e st).bind f = .err e st := rfl

@[simp] theorem DecResult.bind_diverge {α β : Type}
    (f : α → Deserializer → DecResult β) :
    (DecResult.diverge : DecResult α).bind f = .diverge := rfl

theorem UTF8_CHAR_WIDTH_length : UTF8_CHAR_WIDTH.length = 256 := rfl

/-- Closed form of the width table (§9 of the spec's "equivalent classifier"),
checked against the table entry by entry. -/
theorem utf8_char_width_eq (b : Nat) : utf8_char_width b =
    (if b < 0x80 then 1 else if b < 0xC2 then 0 else if b ≤ 0xDF then 2
     else if b ≤ 0xEF then 3 else if b ≤ 0xF4 then 4 else 0) := by
  by_cases h : b < 256
  · revert h
    revert b
    decide
  · have h2 : UTF8_CHAR_WIDTH.length ≤ b := by rw [UTF8_CHAR_WIDTH_length]; omega
    rw [utf8_char_width, List.getD_eq_default _ _ h2]
    have h3 : ¬ b < 0x80 := by omega
    have h4 : ¬ b ≤ 0xF4 := by omega
    have h5 : ¬ b ≤ 0xDF := by omega
    have h6 : ¬ b ≤ 0xEF := by omega
    have h7 : ¬ b < 0xC2 := by omega
    simp [h3, h4, h5, h6, h7]

/-! ## UTF-8 lemmas -/

@[simp] theorem utf8Encode_length (c : Nat) :
    (utf8Encode c).length = utf8Width c := by
  unfold utf8Encode utf8Width
  split_ifs <;> rfl

/-- A successfully validated buffer has exactly the decoded code point's
encoded width. -/
theorem utf8Decode1_length {l : List Nat} {c : Nat}
    (h : utf8Decode1 l = some c) : l.length = utf8Width c := by
  match l with
  | [] => simp [utf8Decode1] at h
  | [b0] =>
      simp only [utf8Decode1] at h
      split_ifs at h with h1
      · injection h with h
        subst h
        simp [utf8Width, h1]
  | [b0, b1] =>
      simp only [utf8Decode1, isCont, decide_eq_true_eq] at h
      split_ifs at h with h1
      · injection h with h
        subst h
        simp only [utf8Width, List.length_cons, List.length_nil]
        split_ifs <;> omega
  | [b0, b1, b2] =>
      simp only [utf8Decode1, isCont, decide_eq_true_eq] at h
      split_ifs at h with h1
      · injection h with h
        subst h
        simp only [utf8Width, List.length_cons, List.length_nil]
        split_ifs <;> omega
  | [b0, b1, b2, b3] =>
      simp only [utf8Decode1, isCont, decide_eq_true_eq] at h
      split_ifs at h with h1
      · injection h with h
        subst h
        simp only [utf8Width, List.length_cons, List.length_nil]
        split_ifs <;> omega
  | _ :: _ :: _ :: _ :: _ :: _ => simp [utf8Decode1] at h

/-- Unfolded well-formedness of a scalar value. -/
theorem charWf_iff {c : Nat} :
    charWf c = true ↔ c < 0x110000 ∧ ¬(0xD800 ≤ c ∧ c < 0xE000) := by
  unfold charWf
  simp only [Bool.and_eq_true, decide_eq_true_eq, Bool.not_eq_true',
    decide_eq_false_iff_not]

/-- Validation inverts encoding on every scalar value. -/
theorem utf8Decode1_utf8Encode {c : Nat} (h : charWf c = true) :
    utf8Decode1 (utf8Encode c) = some c := by
  rw [charWf_iff] at h
  obtain ⟨hub, hsg⟩ := h
  unfold utf8Encode
  by_cases h1 : c < 0x80
  · simp [utf8Decode1, h1]
  · by_cases h2 : c < 0x800
    · rw [if_neg h1, if_pos h2]
      have hcond : (0xC2 ≤ 0xC0 + c / 64 ∧ 0xC0 + c / 64 ≤ 0xDF) ∧
          isCont (0x80 + c % 64) = true := by
        simp only [isCont, decide_eq_true_eq]
        omega
      simp only [utf8Decode1]
      rw [if_pos hcond]
      congr 1
      omega
    · by_cases h3 : c < 0x10000
      · rw [if_neg h1, if_neg h2, if_pos h3]
        have hcond : ((0xE0 + c / 4096 = 0xE0 ∧ 0xA0 ≤ 0x80 + c / 64 % 64 ∧
              0x80 + c / 64 % 64 ≤ 0xBF) ∨
            (0xE1 ≤ 0xE0 + c / 4096 ∧ 0xE0 + c / 4096 ≤ 0xEC ∧
              isCont (0x80 + c / 64 % 64) = true) ∨
            (0xE0 + c / 4096 = 0xED ∧ 0x80 ≤ 0x80 + c / 64 % 64 ∧
              0x80 + c / 64 % 64 ≤ 0x9F) ∨
            (0xEE ≤ 0xE0 + c / 4096 ∧ 0xE0 + c / 4096 ≤ 0xEF ∧
              isCont (0x80 + c / 64 % 64) = true)) ∧
            isCont (0x80 + c % 64) = true := by
          simp only [isCont, decide_eq_true_eq]
          omega
        simp only [utf8Decode1]
        rw [if_pos hcond]
        congr 1
        omega
      · rw [if_neg h1, if_neg h2, if_neg h3]
        have hcond : ((0xF0 + c / 262144 = 0xF0 ∧ 0x90 ≤ 0x80 + c / 4096 % 64 ∧
              0x80 + c / 4096 % 64 ≤ 0xBF) ∨
            (0xF1 ≤ 0xF0 + c / 262144 ∧ 0xF0 + c / 262144 ≤ 0xF3 ∧
              isCont (0x80 + c / 4096 % 64) = true) ∨
            (0xF0 + c / 262144 = 0xF4 ∧ 0x80 ≤ 0x80 + c / 4096 % 64 ∧
              0x80 + c / 4096 % 64 ≤ 0x8F)) ∧
            isCont (0x80 + c / 64 % 64) = true ∧
            isCont (0x80 + c % 64) = true := by
          simp only [isCont, decide_eq_true_eq]
          omega
        simp only [utf8Decode1]
        rw [if_pos hcond]
        congr 1
        omega

/-- The lead byte of an encoded scalar value is classified by the width table
with the value's encoded width. -/
theorem utf8_char_width_head {c : Nat} (h : charWf c = true) :
    utf8_char_width ((utf8Encode c).headI) = utf8Width c := by
  rw [charWf_iff] at h
  unfold utf8Encode utf8Width
  split_ifs with h1 h2 h3
  · rw [List.headI, utf8_char_width_eq]
    simp [h1]
  · rw [List.headI, utf8_char_width_eq]
    have ha : ¬ 0xC0 + c / 64 < 0x80 := by omega
    have hb : ¬ 0xC0 + c / 64 < 0xC2 := by omega
    have hc : 0xC0 + c / 64 ≤ 0xDF := by omega
    simp [ha, hb, hc]
  · rw [List.headI, utf8_char_width_eq]
    have ha : ¬ 0xE0 + c / 4096 < 0x80 := by omega
    have hb : ¬ 0xE0 + c / 4096 < 0xC2 := by omega
    have hc : ¬ 0xE0 + c / 4096 ≤ 0xDF := by omega
    have hd : 0xE0 + c / 4096 ≤ 0xEF := by omega
    simp [ha, hb, hc, hd]
  · rw [List.headI, utf8_char_width_eq]
    have ha : ¬ 0xF0 + c / 262144 < 0x80 := by omega
    have hb : ¬ 0xF0 + c / 262144 < 0xC2 := by omega
    have hc : ¬ 0xF0 + c / 262144 ≤ 0xDF := by omega
    have hd : ¬ 0xF0 + c / 262144 ≤ 0xEF := by omega
    have he : 0xF0 + c / 262144 ≤ 0xF4 := by omega
    simp [ha, hb, hc, hd, he]

/-! ## The `visit_char` continuation loop -/

/-- When the source cannot supply the missing continuation bytes, the loop
never exits, whatever iteration budget it is given: once the source is
drained, every further `read` returns 0 bytes, the `n < width - start` arm
adds 0 to `start`, and the loop state stops changing. -/
theorem charLoopGo_none {filled src : List Nat} {width : Nat} (f : Nat)
    (h : src.length < width - filled.length) :
    charLoopGo f filled width src = none := by
  induction f generalizing filled src with
  | zero => rfl
  | succ f ih =>
      have hlt : filled.length < width := by omega
      have hne : ¬ min (width - filled.length) src.length =
          width - filled.length := by omega
      simp only [charLoopGo, if_pos hlt, if_neg hne]
      apply ih
      simp only [List.length_append, List.length_take, List.length_drop]
      omega

/-- When the source has the continuation bytes, the first `read` delivers all
of them and the loop breaks at once. -/
theorem charLoopGo_complete {filled src : List Nat} {width : Nat} (f : Nat)
    (hlt : filled.length < width)
    (h : width - filled.length ≤ src.length) :
    charLoopGo (f + 1) filled width src =
      some (filled ++ src.take (width - filled.length),
            src.drop (width - filled.length)) := by
  have heq : min (width - filled.length) src.length = width - filled.length :=
    by omega
  simp [charLoopGo, if_pos hlt, heq]

/-- Any completed loop run filled the buffer to exactly `width` bytes. -/
theorem charLoopGo_some_length {f : Nat} {filled src buf rest : List Nat}
    {width : Nat} (h : charLoopGo f filled width src = some (buf, rest))
    (hlt : filled.length < width) : buf.length = width := by
  induction f generalizing filled src with
  | zero => simp [charLoopGo] at h
  | succ f ih =>
      simp only [charLoopGo, if_pos hlt] at h
      by_cases hn : min (width - filled.length) src.length =
          width - filled.length
      · rw [if_pos hn] at h
        injection h with h
        injection h with h1 h2
        subst h1
        simp only [List.length_append, List.length_take]
        omega
      · rw [if_neg hn] at h
        have hlt' : (filled ++ src.take
            (min (width - filled.length) src.length)).length < width := by
          simp only [List.length_append, List.length_take]
          omega
        exact ih h hlt'

/-! ## Primitive reads on well-formed input -/

/-- `read_bytes` under an infinite limit only advances the counter. -/
theorem read_bytes_infinite (r k : Nat) (src : List Nat) :
    read_bytes ⟨.Infinite, r, src⟩ k = .ok () ⟨.Infinite, r + k, src⟩ := rfl

/-- A fixed-width read on a stream that starts with the encoded bytes. -/
theorem readPrim_beBytes (r w v : Nat) (rest : List Nat) (h : v < 256 ^ w) :
    readPrim ⟨.Infinite, r, beBytes w v ++ rest⟩ w =
      .ok v ⟨.Infinite, r + w, rest⟩ := by
  have hlen : w ≤ (beBytes w v ++ rest).length := by
    simp [List.length_append]
  have htake : (beBytes w v ++ rest).take w = beBytes w v := by
    conv in List.take w => rw [show w = (beBytes w v).length by simp]
    exact List.take_left _ _
  have hdrop : (beBytes w v ++ rest).drop w = rest := by
    conv in List.drop w => rw [show w = (beBytes w v).length by simp]
    exact List.drop_left _ _
  simp only [readPrim, read_bytes_infinite, DecResult.bind_ok, readExact,
    if_pos hlen, htake, hdrop, beVal_beBytes h]

/-! ## `visit_char` on well-formed input -/

/-- Decoding a char from a stream that starts with its UTF-8 encoding
succeeds and consumes exactly those bytes; the counter advances by `len_utf8`
for multi-byte code points and — the width-1 early return skips
`read_bytes` — by nothing for 1-byte ones. -/
theorem visit_char_utf8Encode {c : Nat} (h : charWf c = true) (r : Nat)
    (rest : List Nat) :
    visit_char ⟨.Infinite, r, utf8Encode c ++ rest⟩ =
      .ok c ⟨.Infinite, r + (if c < 0x80 then 0 else utf8Width c), rest⟩ := by
  by_cases h1 : c < 0x80
  · have henc : utf8Encode c = [c] := by simp [utf8Encode, h1]
    have hw : utf8_char_width c = 1 := by
      rw [utf8_char_width_eq]
      simp [h1]
    rw [henc]
    simp [visit_char, hw, h1]
  · have hne : utf8Encode c ≠ [] := by
      intro hempty
      have hl := utf8Encode_length c
      rw [hempty] at hl
      simp only [List.length_nil, utf8Width] at hl
      split_ifs at hl
    obtain ⟨b0, tail, henc⟩ := List.exists_cons_of_ne_nil hne
    have hhead : (utf8Encode c).headI = b0 := by rw [henc]; rfl
    have hw : utf8_char_width b0 = utf8Width c := by
      rw [← hhead]
      exact utf8_char_width_head h
    have hwge : 2 ≤ utf8Width c := by
      simp only [utf8Width, if_neg h1]
      split_ifs <;> omega
    have htail : tail.length = utf8Width c - 1 := by
      have hl := utf8Encode_length c
      rw [henc] at hl
      simp at hl
      omega
    have hsrc : utf8Encode c ++ rest = b0 :: (tail ++ rest) := by
      rw [henc]
      rfl
    rw [hsrc]
    have hne1 : ¬ utf8_char_width b0 = 1 := by omega
    have hne0 : ¬ utf8_char_width b0 = 0 := by omega
    have hloop : charLoopGo 2 [b0] (utf8_char_width b0) (tail ++ rest) =
        some ([b0] ++ (tail ++ rest).take (utf8_char_width b0 - 1),
              (tail ++ rest).drop (utf8_char_width b0 - 1)) := by
      have := @charLoopGo_complete [b0] (tail ++ rest) (utf8_char_width b0) 1
        (by simp; omega)
        (by simp only [List.length_append, List.length_cons,
              List.length_nil]; omega)
      simpa using this
    have htake : (tail ++ rest).take (utf8_char_width b0 - 1) = tail := by
      rw [hw, ← htail]
      exact List.take_left _ _
    have hdrop : (tail ++ rest).drop (utf8_char_width b0 - 1) = rest := by
      rw [hw, ← htail]
      exact List.drop_left _ _
    have hbuf : [b0] ++ tail = utf8Encode c := by rw [henc]; rfl
    simp only [visit_char, List.drop_succ_cons, List.drop_zero, hne1, hne0,
      if_false, hloop, htake, hdrop, hbuf, utf8Decode1_utf8Encode h,
      read_bytes_infinite, DecResult.bind_ok, if_neg h1]

/-- Every successful char decode advances `read` by the code point's encoded
width for multi-byte code points, and by nothing for 1-byte ones. -/
theorem visit_char_read {st st' : Deserializer} {c : Nat}
    (h : visit_char st = .ok c st') :
    st'.read = st.read + (if c < 0x80 then 0 else utf8Width c) := by
  obtain ⟨limit, r0, src⟩ := st
  cases src with
  | nil =>
      have hw : utf8_char_width 0 = 1 := rfl
      simp only [visit_char, List.drop_nil, hw] at h
      rw [if_pos trivial] at h
      injection h with h1 h2
      subst h1
      rw [← h2]
      simp
  | cons b tail =>
      simp only [visit_char, List.drop_succ_cons, List.drop_zero] at h
      by_cases hw1 : utf8_char_width b = 1
      · rw [if_pos hw1] at h
        injection h with h1 h2
        subst h1
        have hlt : b < 0x80 := by
          rw [utf8_char_width_eq] at hw1
          split_ifs at hw1 <;> omega
        rw [← h2, if_pos hlt]
        simp
      · rw [if_neg hw1] at h
        by_cases hw0 : utf8_char_width b = 0
        · rw [if_pos hw0] at h
          simp at h
        · rw [if_neg hw0] at h
          cases hloop : charLoopGo 2 [b] (utf8_char_width b) tail with
          | none => simp only [hloop] at h; simp at h
          | some p =>
              obtain ⟨buf, rest⟩ := p
              simp only [hloop] at h
              cases hdec : utf8Decode1 buf with
              | none => simp only [hdec] at h; simp at h
              | some c' =>
                  simp only [hdec] at h
                  simp only [read_bytes, DecResult.bind] at h
                  have hblen : buf.length = utf8_char_width b :=
                    charLoopGo_some_length hloop (by simp; omega)
                  have hwidth : buf.length = utf8Width c' :=
                    utf8Decode1_length hdec
                  have hge : ¬ c' < 0x80 := by
                    have h2w : 2 ≤ utf8Width c' := by omega
                    simp only [utf8Width] at h2w
                    split_ifs at h2w <;> omega
                  cases limit with
                  | Infinite =>
                      simp only at h
                      injection h with h1 h2
                      subst h1
                      rw [← h2, if_neg hge]
                  | Bounded x =>
                      simp only at h
                      split_ifs at h with hb
                      · injection h with h1 h2
                        subst h1
                        rw [← h2, if_neg hge]

/-! ## `visit_string` support -/

theorem utf8Encode_ne_nil (c : Nat) : utf8Encode c ≠ [] := by
  unfold utf8Encode
  split_ifs <;> simp

/-- `String::from_utf8` recognises one encoded code point at the front of a
buffer and continues behind it. -/
theorem utf8DecodeAll_encode_cons {c : Nat} (h : charWf c = true)
    (r : List Nat) :
    utf8DecodeAll (utf8Encode c ++ r) =
      Option.map (fun cs => c :: cs) (utf8DecodeAll r) := by
  obtain ⟨b0, tail, henc⟩ := List.exists_cons_of_ne_nil (utf8Encode_ne_nil c)
  have hhead : (utf8Encode c).headI = b0 := by rw [henc]; rfl
  have hw : utf8_char_width b0 = utf8Width c := by
    rw [← hhead]
    exact utf8_char_width_head h
  have hwpos : 1 ≤ utf8Width c := by
    simp only [utf8Width]
    split_ifs <;> omega
  have htail : tail.length = utf8Width c - 1 := by
    have hl := utf8Encode_length c
    rw [henc] at hl
    simp at hl
    omega
  have hassoc : utf8Encode c ++ r = b0 :: (tail ++ r) := by rw [henc]; rfl
  have htake : (b0 :: (tail ++ r)).take (utf8_char_width b0) = utf8Encode c := by
    rw [henc, hw]
    have : utf8Width c = tail.length + 1 := by omega
    rw [this]
    simp [List.take_append_of_le_length]
  have hdrop : (b0 :: (tail ++ r)).drop (utf8_char_width b0) = r := by
    rw [hw]
    have : utf8Width c = tail.length + 1 := by omega
    rw [this]
    simp [List.drop_append_of_le_length]
  rw [hassoc, utf8DecodeAll]
  rw [dif_neg (by omega : ¬ utf8_char_width b0 = 0)]
  rw [dif_neg (by
    simp only [List.length_cons, List.length_append, hw]
    omega : ¬ (b0 :: (tail ++ r)).length < utf8_char_width b0)]
  rw [htake, utf8Decode1_utf8Encode h, hdrop]
  cases utf8DecodeAll r <;> rfl

/-- A whole encoded string validates back to its scalar values. -/
theorem utf8DecodeAll_encode (cs : List Nat) (h : cs.all charWf = true) :
    utf8DecodeAll (List.flatten (cs.map utf8Encode)) = some cs := by
  induction cs with
  | nil => simp [utf8DecodeAll]
  | cons c cs ih =>
      simp only [List.all_cons, Bool.and_eq_true] at h
      simp only [List.map_cons, List.flatten_cons]
      rw [utf8DecodeAll_encode_cons h.1, ih h.2]
      rfl

/-! ## Two's-complement round-trips (the four signed widths) -/

theorem toSigned_emod_1 (i : Int) (h1 : -128 ≤ i) (h2 : i < 128) :
    toSigned 1 ((i % (2 ^ 8)).toNat) = i := by
  simp only [toSigned]
  norm_num
  split_ifs <;> omega

theorem toSigned_emod_2 (i : Int) (h1 : -32768 ≤ i) (h2 : i < 32768) :
    toSigned 2 ((i % (2 ^ 16)).toNat) = i := by
  simp only [toSigned]
  norm_num
  split_ifs <;> omega

theorem toSigned_emod_4 (i : Int) (h1 : -2147483648 ≤ i) (h2 : i < 2147483648) :
    toSigned 4 ((i % (2 ^ 32)).toNat) = i := by
  simp only [toSigned]
  norm_num
  split_ifs <;> omega

theorem toSigned_emod_8 (i : Int) (h1 : -9223372036854775808 ≤ i)
    (h2 : i < 9223372036854775808) :
    toSigned 8 ((i % (2 ^ 64)).toNat) = i := by
  simp only [toSigned]
  norm_num
  split_ifs <;> omega

theorem emod_toNat_lt {i : Int} (k : Nat) (hk : 0 < k) :
    (i % (k : Int)).toNat < k := by
  have h1 : 0 ≤ i % (k : Int) := Int.emod_nonneg i (by exact_mod_cast hk.ne')
  have h2 : i % (k : Int) < (k : Int) := Int.emod_lt_of_pos i (by exact_mod_cast hk)
  omega

/-! ## Claim theorems -/

/-- C3: before each logical read of `count` bytes the running counter is
incremented by `count` and the source is untouched; the operation fails with
`SizeLimit` — still leaving the counter advanced — exactly when the limit is
bounded and the post-increment counter exceeds it.  In particular a u32
decode fails under `Bounded 3` (counter left at 4, bytes unread) but succeeds
under `Bounded 4`. -/
theorem c3_size_limit_accounting :
    (∀ (st : Deserializer) (count : Nat), ∃ st' : Deserializer,
      st'.read = st.read + count ∧ st'.src = st.src ∧
      st'.size_limit = st.size_limit ∧
      ((read_bytes st count = .ok () st' ∧
          ∀ N, st.size_limit = .Bounded N → st.read + count ≤ N) ∨
       (read_bytes st count = .err .SizeLimit st' ∧
          ∃ N, st.size_limit = .Bounded N ∧ N < st.read + count))) ∧
    decode .sU32 ⟨.Bounded 3, 0, [1, 2, 3, 4]⟩ =
      .err .SizeLimit ⟨.Bounded 3, 4, [1, 2, 3, 4]⟩ ∧
    decode .sU32 ⟨.Bounded 4, 0, [1, 2, 3, 4]⟩ =
      .ok (.vU32 0x01020304) ⟨.Bounded 4, 4, []⟩ := by
  refine ⟨fun st count => ?_, ?_, ?_⟩
  · obtain ⟨limit, r0, src0⟩ := st
    refine ⟨⟨limit, r0 + count, src0⟩, rfl, rfl, rfl, ?_⟩
    cases limit with
    | Infinite => exact Or.inl ⟨rfl, fun N hN => by cases hN⟩
    | Bounded x =>
        by_cases hb : r0 + count ≤ x
        · refine Or.inl ⟨?_, fun N hN => ?_⟩
          · simp [read_bytes, hb]
          · injection hN with hN
            dsimp only
            omega
        · refine Or.inr ⟨?_, x, rfl, by dsimp only; omega⟩
          simp [read_bytes, hb]
  · simp [decode, readPrim, read_bytes, readExact, beVal]
  · simp [decode, readPrim, read_bytes, readExact, beVal]

/-- C4: decoding a bool consumes exactly one byte (counter +1, rest of the
stream untouched); byte 0 gives `false`, byte 1 gives `true`, and any other
byte fails with `InvalidEncoding` whose detail names the offending value. -/
theorem c4_bool_decode (b r : Nat) (rest : List Nat) :
    decode .sBool ⟨.Infinite, r, b :: rest⟩ =
      (if b = 1 then .ok (.vBool true) ⟨.Infinite, r + 1, rest⟩
       else if b = 0 then .ok (.vBool false) ⟨.Infinite, r + 1, rest⟩
       else .err (.InvalidEncoding ⟨"invalid u8 when decoding bool",
         some ("Expected 0 or 1, got " ++ toString b)⟩)
         ⟨.Infinite, r + 1, rest⟩) := by
  have hrp : readPrim ⟨.Infinite, r, b :: rest⟩ 1 =
      .ok b ⟨.Infinite, r + 1, rest⟩ := by
    simp [readPrim, read_bytes, readExact, beVal]
  simp only [decode, hrp, DecResult.bind_ok]

/-- C10: a char decode whose first `read` delivers zero bytes (empty source)
does not fail: the result of that `read` is discarded, the zero-initialized
buffer classifies `0x00` as a 1-byte lead, and the decoder returns the char
`'\0'` without advancing `read`. -/
theorem c10_char_empty_source (limit : SizeLimit) (r : Nat) :
    decode .sChar ⟨limit, r, []⟩ = .ok (.vChar 0) ⟨limit, r, []⟩ := by
  have hw : utf8_char_width 0 = 1 := rfl
  simp [decode, visit_char, hw]

/-- C6 (code_bug): with a 2-byte lead and an exhausted source, the
continuation loop of `visit_char` never exits — no iteration budget makes it
return — because `read` at end-of-stream yields 0 bytes and the
`n < width - start` arm makes no progress; the char decode diverges instead
of failing with `EndOfStreamError` as documented. -/
theorem c6_char_loop_diverges :
    (∀ f : Nat, charLoopGo f [0xC3] 2 [] = none) ∧
    decode .sChar ⟨.Infinite, 0, [0xC3]⟩ = .diverge := by
  constructor
  · intro f
    exact charLoopGo_none f (by simp)
  · have hw : utf8_char_width 0xC3 = 2 := rfl
    have hl : charLoopGo 2 [0xC3] 2 [] = none := charLoopGo_none 2 (by simp)
    simp [decode, visit_char, hw, hl]

/-- C8 counterexample: decoding the 1-byte char `'A'` succeeds but leaves the
running counter at 0 — it is not advanced by the code point's encoded
width 1, because the width-1 early return skips `read_bytes`. -/
theorem c8_ascii_char_no_read_advance :
    decode .sChar ⟨.Infinite, 0, [0x41]⟩ =
      .ok (.vChar 0x41) ⟨.Infinite, 0, []⟩ ∧
    ¬ ((0 : Nat) = 0 + utf8Width 0x41) := by
  constructor
  · have hw : utf8_char_width 0x41 = 1 := rfl
    simp [decode, visit_char, hw]
  · simp [utf8Width]

/-- C8 (amended): a successful char decode advances `read` by the decoded
code point's UTF-8 width for multi-byte code points (2, 3 or 4), and by
nothing at all for 1-byte code points. -/
theorem c8_char_read_advance (st st' : Deserializer) (c : Nat)
    (h : decode .sChar st = .ok (.vChar c) st') :
    st'.read = st.read + (if c < 0x80 then 0 else utf8Width c) := by
  simp only [decode] at h
  cases hv : visit_char st with
  | ok c' st'' =>
      rw [hv] at h
      simp only [DecResult.bind_ok] at h
      injection h with h1 h2
      injection h1 with h1
      subst h1
      subst h2
      exact visit_char_read hv
  | err e st'' => rw [hv] at h; simp at h
  | diverge => rw [hv] at h; simp at h

/-- C8 witness: decoding `ü` (2 UTF-8 bytes) advances the counter by 2. -/
theorem c8_char_read_advance_witness :
    (2 : Nat) = 0 + (if (0xFC : Nat) < 0x80 then 0 else utf8Width 0xFC) := by
  have h : decode .sChar ⟨.Infinite, 0, [0xC3, 0xBC]⟩ =
      .ok (.vChar 0xFC) ⟨.Infinite, 2, []⟩ := by
    have hw : utf8_char_width 0xC3 = 2 := rfl
    simp [decode, visit_char, hw, charLoopGo, utf8Decode1, isCont, utf8Width,
      read_bytes]
  exact c8_char_read_advance _ _ _ h

/-- C2 counterexample: `emit_enum_variant` writes the variant index through
`emit_uint`, i.e. as a u64 — index 2 with a unit payload produces the eight
bytes `00 00 00 00 00 00 00 02`, not the four bytes `00 00 00 02` the claim
states. -/
theorem c2_variant_index_eight_bytes :
    emit_enum_variant 2 [] = [0, 0, 0, 0, 0, 0, 0, 2] ∧
    emit_enum_variant 2 [] ≠ [0, 0, 0, 2] := by
  constructor
  · rfl
  · decide

/-- C2 (amended): the encoder writes the variant index as a u64 big-endian
(8 bytes) followed by the payload — index 2 with a unit payload gives
`00 00 00 00 00 00 00 02` — while the decoder reads the variant index back
as a u32 big-endian, consuming exactly 4 bytes. -/
theorem c2_variant_index_write_u64_read_u32 :
    (∀ (v_id : Nat) (payload : List Nat),
      emit_enum_variant v_id payload = beBytes 8 v_id ++ payload) ∧
    emit_enum_variant 2 [] = [0, 0, 0, 0, 0, 0, 0, 2] ∧
    (∀ (r : Nat) (rest : List Nat),
      decode (.sEnum [[], [], []]) ⟨.Infinite, r, [0, 0, 0, 2] ++ rest⟩ =
        .ok (.vEnum 2 []) ⟨.Infinite, r + 4, rest⟩) := by
  refine ⟨fun v_id payload => rfl, rfl, fun r rest => ?_⟩
  have hb : beBytes 4 2 = [0, 0, 0, 2] := rfl
  have hrp : readPrim ⟨.Infinite, r, [0, 0, 0, 2] ++ rest⟩ 4 =
      .ok 2 ⟨.Infinite, r + 4, rest⟩ := by
    have h := readPrim_beBytes r 4 2 rest (by norm_num)
    rw [hb] at h
    exact h
  simp only [decode, hrp, DecResult.bind_ok]
  simp [decodeVariant, decodeTup]

/-- C5 counterexample: the example stream (declared length 5, only the two
bytes `68 69` present) does not fail with `EndOfStream`; the decode succeeds
with the short string `"hi"`, the counter nevertheless advanced by the
declared 13 bytes. -/
theorem c5_short_string_decodes :
    decode .sStr ⟨.Infinite, 0, [0, 0, 0, 0, 0, 0, 0, 5, 0x68, 0x69]⟩ =
      .ok (.vStr [0x68, 0x69]) ⟨.Infinite, 13, []⟩ := by
  simp [decode, visit_string, readPrim, read_bytes, readExact, beVal,
    utf8DecodeAll, utf8Decode1, utf8_char_width_eq]

/-- C5 (amended): when the u64 length prefix declares `len` bytes but the
source ends after fewer, `take(len).read_to_end` returns just the available
bytes and the decode succeeds with the shorter string, provided those bytes
are valid UTF-8; the counter is still advanced by the declared `len`. -/
theorem c5_short_string_succeeds (r len : Nat) (bytes cs : List Nat)
    (h1 : bytes.length < len) (h2 : len < 2 ^ 64)
    (h3 : utf8DecodeAll bytes = some cs) :
    decode .sStr ⟨.Infinite, r, beBytes 8 len ++ bytes⟩ =
      .ok (.vStr cs) ⟨.Infinite, r + 8 + len, []⟩ := by
  have h2' : len < 256 ^ 8 := by
    have : (256 : Nat) ^ 8 = 2 ^ 64 := by norm_num
    omega
  have hrp := readPrim_beBytes r 8 len bytes h2'
  have htake : bytes.take len = bytes := List.take_of_length_le (by omega)
  have hdrop : bytes.drop len = [] := List.drop_eq_nil_of_le (by omega)
  simp only [decode, visit_string, hrp, DecResult.bind_ok,
    read_bytes_infinite, htake, hdrop, h3]

/-- C5 witness: the amended behavior at the spec's example input. -/
theorem c5_short_string_succeeds_witness :
    decode .sStr ⟨.Infinite, 0, beBytes 8 5 ++ [0x68, 0x69]⟩ =
      .ok (.vStr [0x68, 0x69]) ⟨.Infinite, 0 + 8 + 5, []⟩ :=
  c5_short_string_succeeds 0 5 [0x68, 0x69] [0x68, 0x69]
    (by norm_num) (by norm_num)
    (by simp [utf8DecodeAll, utf8Decode1, utf8_char_width_eq])

/-- C7: after a sequence visitor with declared count `N` has served `k`
element requests, its remaining count is `N - k`, and the `end` check fails
with `SyntaxError` exactly when the visitor stopped early (`k < N`); with all
`N` elements consumed it succeeds. -/
theorem c7_seq_end_check (s : Shape) :
    ∀ (k N : Nat) (st : Deserializer) (len' : Nat) (st' : Deserializer),
    k ≤ N → SeqVisitor.visitMany s k N st = .ok len' st' →
    len' = N - k ∧
    SeqVisitor.endCheck len' =
      (if k = N then Except.ok ()
       else Except.error DeserializeError.SyntaxError) := by
  intro k
  induction k with
  | zero =>
      intro N st len' st' hk h
      simp only [SeqVisitor.visitMany] at h
      injection h with h1 h2
      constructor
      · omega
      · simp only [SeqVisitor.endCheck]
        by_cases hN : len' = 0
        · rw [if_pos hN, if_pos (by omega)]
        · rw [if_neg hN, if_neg (by omega)]
  | succ k ih =>
      intro N st len' st' hk h
      have hN : 0 < N := by omega
      simp only [SeqVisitor.visitMany, SeqVisitor.visit, if_pos hN] at h
      cases hd : decode s st with
      | ok v st1 =>
          rw [hd] at h
          simp only [DecResult.bind_ok] at h
          obtain ⟨h1, h2⟩ := ih (N - 1) st1 len' st' (by omega) h
          refine ⟨by omega, ?_⟩
          rw [h2]
          have hiff : (k = N - 1) = (k + 1 = N) := by
            apply propext
            constructor <;> (intro hx; omega)
          simp only [hiff]
      | err e st1 => rw [hd] at h; simp at h
      | diverge => rw [hd] at h; simp at h

/-- C7 witness: declared count 2, visitor stops after 1 element — the end
check fails with `SyntaxError`. -/
theorem c7_seq_end_check_witness :
    (1 : Nat) = 2 - 1 ∧
    SeqVisitor.endCheck 1 =
      (if (1 : Nat) = 2 then Except.ok ()
       else Except.error DeserializeError.SyntaxError) := by
  apply c7_seq_end_check .sU8 1 2 ⟨.Infinite, 0, [7, 9]⟩ 1 ⟨.Infinite, 1, [9]⟩
    (by omega)
  simp [SeqVisitor.visitMany, SeqVisitor.visit, decode, readPrim, read_bytes,
    readExact, beVal]

/-- C9: the tuple visitor enforces no element count: its `end` check is
unconditionally `Ok` (it can never fail with `SyntaxError`, unlike the
sequence and map visitors), and every `visit` request simply decodes another
element whenever element decoding succeeds. -/
theorem c9_tuple_no_end_check :
    TupleVisitor.endCheck = Except.ok () ∧
    (∀ e, TupleVisitor.endCheck ≠ Except.error e) ∧
    (∀ (s : Shape) (st : Deserializer) (v : Value) (st' : Deserializer),
      decode s st = .ok v st' →
      TupleVisitor.visit s st = .ok (some v) st') := by
  refine ⟨rfl, fun e => by simp [TupleVisitor.endCheck], ?_⟩
  intro s st v st' h
  simp [TupleVisitor.visit, h]

/-- C9 witness: a concrete tuple-element request decodes and yields. -/
theorem c9_tuple_no_end_check_witness :
    TupleVisitor.visit .sU8 ⟨.Infinite, 0, [5]⟩ =
      .ok (some (.vU8 5)) ⟨.Infinite, 1, []⟩ :=
  c9_tuple_no_end_check.2.2 .sU8 ⟨.Infinite, 0, [5]⟩ (.vU8 5)
    ⟨.Infinite, 1, []⟩
    (by simp [decode, readPrim, read_bytes, readExact, beVal])

/-- C1 counterexample: the enum round-trip fails.  Encoding variant index 2
with a unit payload writes the u64 index `00 00 00 00 00 00 00 02`; decoding
reads only a u32 index from the first four bytes, selecting variant 0 and
leaving four bytes unconsumed — the decoded value differs from the encoded
one. -/
theorem c1_enum_roundtrip_fails :
    Value.matches (.vEnum 2 []) (.sEnum [[], [], []]) = true ∧
    encodeVal (.vEnum 2 []) = [0, 0, 0, 0, 0, 0, 0, 2] ∧
    decode (.sEnum [[], [], []]) ⟨.Infinite, 0, encodeVal (.vEnum 2 [])⟩ =
      .ok (.vEnum 0 []) ⟨.Infinite, 4, [0, 0, 0, 2]⟩ ∧
    Value.vEnum 0 [] ≠ Value.vEnum 2 [] := by
  have henc : encodeVal (.vEnum 2 []) = [0, 0, 0, 0, 0, 0, 0, 2] := by
    simp [encodeVal, encodeList, emit_enum_variant, emit_uint, emit_u64,
      beBytes]
  refine ⟨?_, henc, ?_, by simp⟩
  · simp [Value.matches, matchesVariant, matchesTup]
  · rw [henc]
    simp [decode, decodeVariant, decodeTup, readPrim, read_bytes, readExact,
      beVal]

/-- C1 (amended): `decode (encode v) = v` for every well-formed value of
every enum-free shape — all primitives, chars, strings, options, sequences,
maps and nested tuples; the decode consumes exactly the encoded bytes.  (For
enums the round-trip fails: the writer emits a u64 variant index, the reader
consumes a u32 — see the counterexample.) -/
theorem c1_roundtrip_no_enum (v : Value) (s : Shape) (hne : noEnum s = true)
    (hm : Value.matches v s = true) (r : Nat) (rest : List Nat) :
    ∃ r', decode s ⟨.Infinite, r, encodeVal v ++ rest⟩ =
      .ok v ⟨.Infinite, r', rest⟩ := by
  suffices H : ∀ (n : Nat) (v : Value) (s : Shape), sizeOf v ≤ n →
      noEnum s = true → Value.matches v s = true →
      ∀ (r : Nat) (rest : List Nat), ∃ r',
        decode s ⟨.Infinite, r, encodeVal v ++ rest⟩ =
          .ok v ⟨.Infinite, r', rest⟩ from
    H (sizeOf v) v s le_rfl hne hm r rest
  intro n
  induction n using Nat.strong_induction_on with
  | _ n IH =>
    intro v s hsize hne hm r rest
    cases v with
    | vBool b =>
        cases s <;> (try simp only [Value.matches] at hm) <;>
          (try exact absurd hm Bool.false_eq_true_eq_False)
        refine ⟨r + 1, ?_⟩
        have henc : encodeVal (.vBool b) = [if b then 1 else 0] := by
          simp [encodeVal, emit_bool]
        rw [henc]
        have hrp : readPrim ⟨.Infinite, r, (if b then 1 else 0) :: rest⟩ 1 =
            .ok (if b then 1 else 0) ⟨.Infinite, r + 1, rest⟩ := by
          simp [readPrim, read_bytes, readExact, beVal]
        simp only [List.singleton_append, decode, hrp, DecResult.bind_ok]
        cases b <;> simp
    | vU8 n0 =>
        cases s <;> (try simp only [Value.matches, decide_eq_true_eq] at hm) <;>
          (try exact absurd hm Bool.false_eq_true_eq_False)
        refine ⟨r + 1, ?_⟩
        have henc : encodeVal (.vU8 n0) = beBytes 1 n0 := by
          simp [encodeVal, emit_u8, beBytes, Nat.mod_eq_of_lt hm]
        rw [henc]
        simp only [decode, readPrim_beBytes r 1 n0 rest (by omega),
          DecResult.bind_ok]
    | vU16 n0 =>
        cases s <;> (try simp only [Value.matches, decide_eq_true_eq] at hm) <;>
          (try exact absurd hm Bool.false_eq_true_eq_False)
        refine ⟨r + 2, ?_⟩
        have henc : encodeVal (.vU16 n0) = beBytes 2 n0 := by
          simp [encodeVal, emit_u16]
        rw [henc]
        simp only [decode, readPrim_beBytes r 2 n0 rest (by omega),
          DecResult.bind_ok]
    | vU32 n0 =>
        cases s <;> (try simp only [Value.matches, decide_eq_true_eq] at hm) <;>
          (try exact absurd hm Bool.false_eq_true_eq_False)
        refine ⟨r + 4, ?_⟩
        have henc : encodeVal (.vU32 n0) = beBytes 4 n0 := by
          simp [encodeVal, emit_u32]
        rw [henc]
        simp only [decode, readPrim_beBytes r 4 n0 rest (by omega),
          DecResult.bind_ok]
    | vU64 n0 =>
        cases s <;> (try simp only [Value.matches, decide_eq_true_eq] at hm) <;>
          (try exact absurd hm Bool.false_eq_true_eq_False)
        refine ⟨r + 8, ?_⟩
        have henc : encodeVal (.vU64 n0) = beBytes 8 n0 := by
          simp [encodeVal, emit_u64]
        rw [henc]
        simp only [decode, readPrim_beBytes r 8 n0 rest (by omega),
          DecResult.bind_ok]
    | vF32 n0 =>
        cases s <;> (try simp only [Value.matches, decide_eq_true_eq] at hm) <;>
          (try exact absurd hm Bool.false_eq_true_eq_False)
        refine ⟨r + 4, ?_⟩
        have henc : encodeVal (.vF32 n0) = beBytes 4 n0 := by
          simp [encodeVal, emit_u32]
        rw [henc]
        simp only [decode, readPrim_beBytes r 4 n0 rest (by omega),
          DecResult.bind_ok]
    | vF64 n0 =>
        cases s <;> (try simp only [Value.matches, decide_eq_true_eq] at hm) <;>
          (try exact absurd hm Bool.false_eq_true_eq_False)
        refine ⟨r + 8, ?_⟩
        have henc : encodeVal (.vF64 n0) = beBytes 8 n0 := by
          simp [encodeVal, emit_u64]
        rw [henc]
        simp only [decode, readPrim_beBytes r 8 n0 rest (by omega),
          DecResult.bind_ok]
    | vI8 i =>
        cases s <;> (try simp only [Value.matches, decide_eq_true_eq] at hm) <;>
          (try exact absurd hm Bool.false_eq_true_eq_False)
        refine ⟨r + 1, ?_⟩
        have henc : encodeVal (.vI8 i) = beBytes 1 ((i % (2 ^ 8)).toNat) := by
          simp [encodeVal, emit_i8, beBytes]
        rw [henc]
        simp only [decode,
          readPrim_beBytes r 1 ((i % (2 ^ 8)).toNat) rest (by omega),
          DecResult.bind_ok, toSigned_emod_1 i (by omega) (by omega)]
    | vI16 i =>
        cases s <;> (try simp only [Value.matches, decide_eq_true_eq] at hm) <;>
          (try exact absurd hm Bool.false_eq_true_eq_False)
        refine ⟨r + 2, ?_⟩
        have henc : encodeVal (.vI16 i) = beBytes 2 ((i % (2 ^ 16)).toNat) := by
          simp [encodeVal, emit_i16]
        rw [henc]
        simp only [decode,
          readPrim_beBytes r 2 ((i % (2 ^ 16)).toNat) rest (by omega),
          DecResult.bind_ok, toSigned_emod_2 i (by omega) (by omega)]
    | vI32 i =>
        cases s <;> (try simp only [Value.matches, decide_eq_true_eq] at hm) <;>
          (try exact absurd hm Bool.false_eq_true_eq_False)
        refine ⟨r + 4, ?_⟩
        have henc : encodeVal (.vI32 i) = beBytes 4 ((i % (2 ^ 32)).toNat) := by
          simp [encodeVal, emit_i32]
        rw [henc]
        simp only [decode,
          readPrim_beBytes r 4 ((i % (2 ^ 32)).toNat) rest (by omega),
          DecResult.bind_ok, toSigned_emod_4 i (by omega) (by omega)]
    | vI64 i =>
        cases s <;> (try simp only [Value.matches, decide_eq_true_eq] at hm) <;>
          (try exact absurd hm Bool.false_eq_true_eq_False)
        refine ⟨r + 8, ?_⟩
        have henc : encodeVal (.vI64 i) = beBytes 8 ((i % (2 ^ 64)).toNat) := by
          simp [encodeVal, emit_i64]
        rw [henc]
        simp only [decode,
          readPrim_beBytes r 8 ((i % (2 ^ 64)).toNat) rest (by omega),
          DecResult.bind_ok, toSigned_emod_8 i (by omega) (by omega)]
    | vUnit =>
        cases s <;> (try simp only [Value.matches] at hm) <;>
          (try exact absurd hm Bool.false_eq_true_eq_False)
        refine ⟨r, ?_⟩
        have henc : encodeVal .vUnit = [] := by simp [encodeVal]
        rw [henc, List.nil_append]
        simp [decode]
    | vChar c =>
        cases s <;> (try simp only [Value.matches] at hm) <;>
          (try exact absurd hm Bool.false_eq_true_eq_False)
        refine ⟨r + (if c < 0x80 then 0 else utf8Width c), ?_⟩
        have henc : encodeVal (.vChar c) = utf8Encode c := by
          simp [encodeVal, emit_char]
        rw [henc]
        simp only [decode, visit_char_utf8Encode hm r rest, DecResult.bind_ok]
    | vStr cs =>
        cases s <;>
          (try simp only [Value.matches, Bool.and_eq_true,
            decide_eq_true_eq] at hm) <;>
          (try exact absurd hm Bool.false_eq_true_eq_False)
        obtain ⟨hall, hlen⟩ := hm
        refine ⟨r + 8 + strByteLen cs, ?_⟩
        have henc : encodeVal (.vStr cs) =
            beBytes 8 (strByteLen cs) ++ List.flatten (cs.map utf8Encode) := by
          simp [encodeVal, emit_str, emit_uint, emit_u64, strByteLen]
        rw [henc, List.append_assoc]
        have h8 : strByteLen cs < 256 ^ 8 := by omega
        have hflat : (List.flatten (cs.map utf8Encode)).length =
            strByteLen cs := rfl
        have htake : (List.flatten (cs.map utf8Encode) ++ rest).take
            (strByteLen cs) = List.flatten (cs.map utf8Encode) := by
          rw [← hflat]
          exact List.take_left _ _
        have hdrop : (List.flatten (cs.map utf8Encode) ++ rest).drop
            (strByteLen cs) = rest := by
          rw [← hflat]
          exact List.drop_left _ _
        simp only [decode, visit_string,
          readPrim_beBytes r 8 (strByteLen cs) _ h8, DecResult.bind_ok,
          read_bytes_infinite, htake, hdrop, utf8DecodeAll_encode cs hall]
    | vOption o =>
        cases o with
        | none =>
            cases s <;> (try simp only [Value.matches] at hm) <;>
          (try exact absurd hm Bool.false_eq_true_eq_False)
            case sOption s' =>
              refine ⟨r + 1, ?_⟩
              have henc : encodeVal (.vOption none) = [0] := by
                simp [encodeVal, emit_option_none]
              rw [henc]
              have hrp : readPrim ⟨.Infinite, r, 0 :: rest⟩ 1 =
                  .ok 0 ⟨.Infinite, r + 1, rest⟩ := by
                simp [readPrim, read_bytes, readExact, beVal]
              simp only [List.singleton_append, decode, hrp,
                DecResult.bind_ok]
              simp
        | some v' =>
            cases s <;> (try simp only [Value.matches] at hm) <;>
          (try exact absurd hm Bool.false_eq_true_eq_False)
            case sOption s' =>
              simp only [noEnum] at hne
              have hsz : sizeOf v' < n := by
                have hs1 : sizeOf (Value.vOption (some v')) ≤ n := hsize
                have hs2 : sizeOf (Value.vOption (some v')) =
                    1 + (1 + sizeOf v') := by simp
                omega
              obtain ⟨r', hdec⟩ :=
                IH (sizeOf v') hsz v' s' le_rfl hne hm (r + 1) rest
              refine ⟨r', ?_⟩
              have henc : encodeVal (.vOption (some v')) =
                  1 :: encodeVal v' := by
                simp [encodeVal, emit_option_some]
              rw [henc]
              have hrp : readPrim ⟨.Infinite, r, 1 :: (encodeVal v' ++ rest)⟩
                  1 = .ok 1 ⟨.Infinite, r + 1, encodeVal v' ++ rest⟩ := by
                simp [readPrim, read_bytes, readExact, beVal]
              simp only [List.cons_append, decode, hrp, DecResult.bind_ok]
              simp [hdec]
    | vSeq l =>
        cases s <;>
          (try simp only [Value.matches, Bool.and_eq_true,
            decide_eq_true_eq] at hm) <;>
          (try exact absurd hm Bool.false_eq_true_eq_False)
        case sSeq s' =>
          simp only [noEnum] at hne
          obtain ⟨hlen, hml⟩ := hm
          have hlist : ∀ (l2 : List Value), (∀ x ∈ l2, sizeOf x < n) →
              matchesList l2 s' = true → ∀ (r2 : Nat) (rest2 : List Nat),
              ∃ r'', decodeN s' l2.length
                  ⟨.Infinite, r2, encodeList l2 ++ rest2⟩ =
                .ok l2 ⟨.Infinite, r'', rest2⟩ := by
            intro l2
            induction l2 with
            | nil =>
                intro _ _ r2 rest2
                refine ⟨r2, ?_⟩
                have he : encodeList [] = ([] : List Nat) := by
                  simp [encodeList]
                rw [he, List.nil_append]
                simp [decodeN]
            | cons x xs ihx =>
                intro hsz hmm r2 rest2
                simp only [matchesList, Bool.and_eq_true] at hmm
                obtain ⟨r3, hdx⟩ := IH (sizeOf x) (hsz x (by simp)) x s'
                  le_rfl hne hmm.1 r2 (encodeList xs ++ rest2)
                obtain ⟨r4, hdxs⟩ :=
                  ihx (fun y hy => hsz y (by simp [hy])) hmm.2 r3 rest2
                refine ⟨r4, ?_⟩
                have he : encodeList (x :: xs) =
                    encodeVal x ++ encodeList xs := by simp [encodeList]
                rw [he, List.append_assoc,
                  show (x :: xs).length = xs.length + 1 from rfl]
                simp only [decodeN, hdx, DecResult.bind_ok, hdxs]
          obtain ⟨r'', hd⟩ := hlist l
            (fun x hx => by
              have h1 := List.sizeOf_lt_of_mem hx
              have h2 : sizeOf (Value.vSeq l) = 1 + sizeOf l := by simp
              omega)
            hml (r + 8) rest
          refine ⟨r'', ?_⟩
          have henc : encodeVal (.vSeq l) =
              beBytes 8 l.length ++ encodeList l := by
            simp [encodeVal, emit_seq, emit_uint, emit_u64]
          rw [henc, List.append_assoc]
          have h8 : l.length < 256 ^ 8 := by omega
          simp only [decode, readPrim_beBytes r 8 l.length _ h8,
            DecResult.bind_ok, hd]
    | vMap l =>
        cases s <;>
          (try simp only [Value.matches, Bool.and_eq_true,
            decide_eq_true_eq] at hm) <;>
          (try exact absurd hm Bool.false_eq_true_eq_False)
        case sMap ks vs =>
          simp only [noEnum, Bool.and_eq_true] at hne
          obtain ⟨hlen, hml⟩ := hm
          have hlist : ∀ (l2 : List (Value × Value)),
              (∀ x ∈ l2, sizeOf x < n) →
              matchesPairs l2 ks vs = true → ∀ (r2 : Nat) (rest2 : List Nat),
              ∃ r'', decodePairs ks vs l2.length
                  ⟨.Infinite, r2, encodePairs l2 ++ rest2⟩ =
                .ok l2 ⟨.Infinite, r'', rest2⟩ := by
            intro l2
            induction l2 with
            | nil =>
                intro _ _ r2 rest2
                refine ⟨r2, ?_⟩
                have he : encodePairs [] = ([] : List Nat) := by
                  simp [encodePairs]
                rw [he, List.nil_append]
                simp [decodePairs]
            | cons x xs ihx =>
                obtain ⟨xk, xv⟩ := x
                intro hsz hmm r2 rest2
                simp only [matchesPairs, Bool.and_eq_true] at hmm
                obtain ⟨⟨hmk, hmv⟩, hmrest⟩ := hmm
                have hszk : sizeOf xk < n := by
                  have h1 := hsz (xk, xv) (by simp)
                  have h2 : sizeOf (xk, xv) = 1 + sizeOf xk + sizeOf xv := by
                    simp
                  omega
                have hszv : sizeOf xv < n := by
                  have h1 := hsz (xk, xv) (by simp)
                  have h2 : sizeOf (xk, xv) = 1 + sizeOf xk + sizeOf xv := by
                    simp
                  omega
                obtain ⟨r3, hdk⟩ := IH (sizeOf xk) hszk xk ks le_rfl hne.1
                  hmk r2 (encodeVal xv ++ (encodePairs xs ++ rest2))
                obtain ⟨r4, hdv⟩ := IH (sizeOf xv) hszv xv vs le_rfl hne.2
                  hmv r3 (encodePairs xs ++ rest2)
                obtain ⟨r5, hdxs⟩ :=
                  ihx (fun y hy => hsz y (by simp [hy])) hmrest r4 rest2
                refine ⟨r5, ?_⟩
                have he : encodePairs ((xk, xv) :: xs) =
                    encodeVal xk ++ (encodeVal xv ++ encodePairs xs) := by
                  simp [encodePairs]
                rw [he, List.append_assoc, List.append_assoc,
                  show ((xk, xv) :: xs).length = xs.length + 1 from rfl]
                simp only [decodePairs, hdk, DecResult.bind_ok, hdv, hdxs]
          obtain ⟨r'', hd⟩ := hlist l
            (fun x hx => by
              have h1 := List.sizeOf_lt_of_mem hx
              have h2 : sizeOf (Value.vMap l) = 1 + sizeOf l := by simp
              omega)
            hml (r + 8) rest
          refine ⟨r'', ?_⟩
          have henc : encodeVal (.vMap l) =
              beBytes 8 l.length ++ encodePairs l := by
            simp [encodeVal, emit_map, emit_uint, emit_u64]
          rw [henc, List.append_assoc]
          have h8 : l.length < 256 ^ 8 := by omega
          simp only [decode, readPrim_beBytes r 8 l.length _ h8,
            DecResult.bind_ok, hd]
    | vTuple l =>
        cases s <;> (try simp only [Value.matches] at hm) <;>
          (try exact absurd hm Bool.false_eq_true_eq_False)
        case sTuple ss =>
          simp only [noEnum] at hne
          have htup : ∀ (l2 : List Value) (ss2 : List Shape),
              (∀ x ∈ l2, sizeOf x < n) → matchesTup l2 ss2 = true →
              noEnumList ss2 = true → ∀ (r2 : Nat) (rest2 : List Nat),
              ∃ r'', decodeTup ss2 ⟨.Infinite, r2, encodeList l2 ++ rest2⟩ =
                .ok l2 ⟨.Infinite, r'', rest2⟩ := by
            intro l2
            induction l2 with
            | nil =>
                intro ss2 _ hmm hne2 r2 rest2
                cases ss2 with
                | nil =>
                    refine ⟨r2, ?_⟩
                    have he : encodeList [] = ([] : List Nat) := by
                      simp [encodeList]
                    rw [he, List.nil_append]
                    simp [decodeTup]
                | cons s0 ss0 => simp [matchesTup] at hmm
            | cons x xs ihx =>
                intro ss2 hsz hmm hne2 r2 rest2
                cases ss2 with
                | nil => simp [matchesTup] at hmm
                | cons s0 ss0 =>
                    simp only [matchesTup, Bool.and_eq_true] at hmm
                    simp only [noEnumList, Bool.and_eq_true] at hne2
                    obtain ⟨r3, hdx⟩ := IH (sizeOf x) (hsz x (by simp)) x s0
                      le_rfl hne2.1 hmm.1 r2 (encodeList xs ++ rest2)
                    obtain ⟨r4, hdxs⟩ := ihx ss0
                      (fun y hy => hsz y (by simp [hy])) hmm.2 hne2.2 r3 rest2
                    refine ⟨r4, ?_⟩
                    have he : encodeList (x :: xs) =
                        encodeVal x ++ encodeList xs := by simp [encodeList]
                    rw [he, List.append_assoc]
                    simp only [decodeTup, hdx, DecResult.bind_ok, hdxs]
          obtain ⟨r'', hd⟩ := htup l ss
            (fun x hx => by
              have h1 := List.sizeOf_lt_of_mem hx
              have h2 : sizeOf (Value.vTuple l) = 1 + sizeOf l := by simp
              omega)
            hm hne r rest
          refine ⟨r'', ?_⟩
          have henc : encodeVal (.vTuple l) = encodeList l := by
            simp [encodeVal]
          rw [henc]
          simp only [decode, hd, DecResult.bind_ok]
    | vEnum idx p =>
        cases s <;> (try simp only [Value.matches] at hm) <;>
          (try exact absurd hm Bool.false_eq_true_eq_False)
        case sEnum vss => simp [noEnum] at hne

/-- C1 witness: a nested tuple `( (u8 7), option::some (u16 0x1234),
[true, false] )` round-trips through the codec with trailing bytes
preserved. -/
theorem c1_roundtrip_no_enum_witness :
    ∃ r', decode (.sTuple [.sU8, .sOption .sU16, .sSeq .sBool])
        ⟨.Infinite, 0,
          encodeVal (.vTuple [.vU8 7, .vOption (some (.vU16 0x1234)),
            .vSeq [.vBool true, .vBool false]]) ++ [9, 9]⟩ =
      .ok (.vTuple [.vU8 7, .vOption (some (.vU16 0x1234)),
            .vSeq [.vBool true, .vBool false]]) ⟨.Infinite, r', [9, 9]⟩ :=
  c1_roundtrip_no_enum _ _
    (by simp [noEnum, noEnumList])
    (by simp [Value.matches, matchesTup, matchesList])
    0 [9, 9]

end Bincode
